import Mathlib

/-!
Verification of the perspective-box geometry engine (src/main.ts).

The source's JavaScript numbers are modelled as exact rationals; every
arithmetic operation used by the engine (+, -, *, /, comparisons) is mirrored
exactly.  The JavaScript reference-equality guard in isOnLeftOf is modelled as
coordinate equality: whenever two argument objects are reference-equal their
coordinates coincide, and in every guard case the cross product computed below
is zero anyway, so both models return the same boolean on all inputs.
All definitions live in namespace Main (after the source file main.ts), since
Lean's library already owns some of the source's names (Vector, convexHull).
-/

namespace Main

/-- Mirrors class Point of src/main.ts: immutable (x, y) in scene coordinates. -/
structure Point where
  x : ℚ
  y : ℚ
deriving DecidableEq, Repr

instance : Inhabited Point := ⟨⟨0, 0⟩⟩

/-- Mirrors class Vector of src/main.ts (named Vec here because Lean's core
library already owns the name Vector): immutable (dx, dy) displacement. -/
structure Vec where
  x : ℚ
  y : ℚ
deriving DecidableEq, Repr

/-- Mirrors Vector.times: componentwise scaling. -/
def Vec.times (v : Vec) (m : ℚ) : Vec := ⟨v.x * m, v.y * m⟩

/-- Mirrors Point.vectorFrom: this - other as a displacement. -/
def Point.vectorFrom (p other : Point) : Vec := ⟨p.x - other.x, p.y - other.y⟩

/-- Mirrors Point.plus: translate a point by a vector. -/
def Point.plus (p : Point) (v : Vec) : Point := ⟨p.x + v.x, p.y + v.y⟩

/-- Mirrors Point.minus: translate a point by the negation of a vector. -/
def Point.minus (p : Point) (v : Vec) : Point := ⟨p.x - v.x, p.y - v.y⟩

/-- Mirrors class Line of src/main.ts: a segment/ray between two points with
per-endpoint truncation flags (the flags only affect drawing). -/
structure Line where
  begin : Point
  endP : Point
  stopAtBegin : Bool
  stopAtEnd : Bool
deriving DecidableEq, Repr

/-- The direction vector end - begin of a line, as used by intersectWith. -/
def Line.direction (l : Line) : Vec := l.endP.vectorFrom l.begin

/-- Mirrors Line.intersectWith of src/main.ts, lines 147-159.  The thrown
"Lines are parallel" error is modelled as Except.error. -/
def Line.intersectWith (l other : Line) : Except String Point :=
  let tr := l.endP.vectorFrom l.begin
  let orv := other.endP.vectorFrom other.begin
  let denom := tr.y * orv.x - tr.x * orv.y
  if denom = 0 then Except.error "Lines are parallel"
  else
    let t := ((l.begin.x - other.begin.x) * orv.y - (l.begin.y - other.begin.y) * orv.x) / denom
    Except.ok (l.begin.plus (tr.times t))

/-- The 2D cross product of two direction vectors, as the spec describes it
(the sign test used throughout the source). -/
def crossVec (a b : Vec) : ℚ := a.x * b.y - b.x * a.y

/-- A point lies on the infinite line through l.begin and l.endP: it satisfies
the parametric form begin + t * (end - begin) for some rational t. -/
def Point.onLine (z : Point) (l : Line) : Prop :=
  ∃ t : ℚ, z = l.begin.plus ((l.endP.vectorFrom l.begin).times t)

/-- Mirrors function isOnLeftOf of src/main.ts, lines 26-35.  The three
object-identity guards are modelled by coordinate equality (see header). -/
def isOnLeftOf (p1 p2 p : Point) : Bool :=
  if p1 = p2 ∨ p = p1 ∨ p = p2 then false
  else
    let a := p2.vectorFrom p1
    let b := p.vectorFrom p1
    decide (a.x * b.y - b.x * a.y > 0)

/-- Element access s[i] on the point array; all accesses performed by the
source are in bounds, so the default value is never produced. -/
def nth (s : List Point) (i : Nat) : Point := s.getD i default

/-- The left-most-point scan of convexHull (src/main.ts lines 43-48):
l starts at 0 and moves to i whenever s[i].x < s[l].x. -/
def minXLoop (s : List Point) : List Nat → Nat → Nat
  | [], l => l
  | i :: rest, l => minXLoop s rest (if (nth s i).x < (nth s l).x then i else l)

/-- Index of the first input point of minimum x, as computed by the source. -/
def minXIndex (s : List Point) : Nat := minXLoop s (List.range' 1 (s.length - 1)) 0

/-- The inner candidate scan of convexHull (src/main.ts lines 58-62):
q moves to i whenever s[i] is strictly left of the directed line s[p] to s[q]. -/
def scanLoop (s : List Point) (p : Nat) : List Nat → Nat → Nat
  | [], q => q
  | i :: rest, q => scanLoop s p rest (if isOnLeftOf (nth s p) (nth s q) (nth s i) then i else q)

/-- One full gift-wrapping candidate selection from current vertex p:
q starts at (p+1) % s.length, then every index is scanned once. -/
def scanAll (s : List Point) (p : Nat) : Nat :=
  scanLoop s p (List.range s.length) ((p + 1) % s.length)

/-- The do-while wrap of convexHull (src/main.ts lines 51-65).  The JavaScript
loop pushes s[p], computes q, sets p := q and continues while p !== l and
--max > 0; so with entry counter M the loop recurses exactly when q differs
from l and M is at least 2, continuing with counter M - 1. -/
def wrapLoop (s : List Point) (l : Nat) : Nat → Nat → List Point → List Point
  | 0, p, hull => hull ++ [nth s p]
  | 1, p, hull => hull ++ [nth s p]
  | m + 2, p, hull =>
      let q := scanAll s p
      if q = l then hull ++ [nth s p]
      else wrapLoop s l (m + 1) q (hull ++ [nth s p])

/-- Mirrors function convexHull of src/main.ts, lines 37-68 (named with a Q
suffix because Mathlib owns the root name convexHull).  The thrown
"Convex hull needs at least three points" error is modelled as Except.error;
the loop counter max starts at s.length + 1. -/
def convexHullQ (s : List Point) : Except String (List Point) :=
  if s.length < 3 then Except.error "Convex hull needs at least three points"
  else Except.ok (wrapLoop s (minXIndex s) (s.length + 1) (minXIndex s) [])

-- The components of a successful intersection, named for reuse.

/-- The denominator computed by intersectWith. -/
def interDenom (l other : Line) : ℚ :=
  (l.endP.vectorFrom l.begin).y * (other.endP.vectorFrom other.begin).x -
    (l.endP.vectorFrom l.begin).x * (other.endP.vectorFrom other.begin).y

/-- The parameter t computed by intersectWith. -/
def interT (l other : Line) : ℚ :=
  ((l.begin.x - other.begin.x) * (other.endP.vectorFrom other.begin).y -
      (l.begin.y - other.begin.y) * (other.endP.vectorFrom other.begin).x) / interDenom l other

/-- The point returned by intersectWith on the non-parallel branch. -/
def interPoint (l other : Line) : Point :=
  l.begin.plus ((l.endP.vectorFrom l.begin).times (interT l other))


/-! ### The control-point interaction state machine -/

/-- Mirrors enum ControlPointType of src/main.ts. -/
inductive ControlPointType where
  | VANISHING_POINT
  | BOX_POINT_1
  | BOX_POINT_2
  | LIGHT
  | LIGHT_DROP
deriving DecidableEq, Repr

/-- Mirrors function mapReplace of src/main.ts, lines 22-24, specialised to
the five-key control-point map, which the program keeps total: the value at
replaceKey is replaced by f of the old value, all other keys are untouched. -/
def mapReplace (m : ControlPointType → Point) (replaceKey : ControlPointType)
    (f : Point → Point) : ControlPointType → Point :=
  fun k => if k = replaceKey then f (m k) else m k

/-- Mirrors class ControlPoints of src/main.ts: the total control-point map
plus the optional selection and drag offset.  ControlPoint carries no data
beyond its Point coordinates, so control points are modelled as Points. -/
structure ControlPoints where
  points : ControlPointType → Point
  selected : Option ControlPointType
  delta : Option Vec

/-- Mirrors ControlPoints.moveTo of src/main.ts, lines 296-313. -/
def ControlPoints.moveTo (cps : ControlPoints) (p : Point) : ControlPoints :=
  match cps.selected, cps.delta with
  | some sel, some delta =>
      let newPoint := p.minus delta
      let newMap := mapReplace cps.points sel (fun _ => newPoint)
      let newMap2 := if sel = ControlPointType.LIGHT then
          mapReplace newMap ControlPointType.LIGHT_DROP (fun cp => ⟨newPoint.x, cp.y⟩)
        else newMap
      let newMap3 := if sel = ControlPointType.LIGHT_DROP then
          mapReplace newMap2 ControlPointType.LIGHT (fun cp => ⟨newPoint.x, cp.y⟩)
        else newMap2
      ⟨newMap3, cps.selected, cps.delta⟩
  | _, _ => cps


/-! ### Box projection and shadow construction -/

/-- Mirrors class Box of src/main.ts: the two front corners and the stored
depth value (which Config always sets to 50 and Box.draw never reads). -/
structure Box where
  p1 : Point
  p2 : Point
  depth : ℚ
deriving DecidableEq, Repr

/-- The geometric fields of class Config of src/main.ts that Box.draw uses. -/
structure Config where
  vanishingPoint : Point
  box : Box
  light : Point
  lightDrop : Point

/-- Mirrors the Config constructor, src/main.ts lines 329-337: the named
points are resolved from the control-point map and the Box is built from the
two box corners with depth 50. -/
def configOf (controlPoints : ControlPoints) : Config :=
  { vanishingPoint := controlPoints.points ControlPointType.VANISHING_POINT
    box := ⟨controlPoints.points ControlPointType.BOX_POINT_1,
      controlPoints.points ControlPointType.BOX_POINT_2, 50⟩
    light := controlPoints.points ControlPointType.LIGHT
    lightDrop := controlPoints.points ControlPointType.LIGHT_DROP }

/-- Front face of the box, Box.draw lines 174-179. -/
def frontPoints (b : Box) : List Point :=
  [b.p1, ⟨b.p1.x, b.p2.y⟩, b.p2, ⟨b.p2.x, b.p1.y⟩]

/-- Back face of the box, Box.draw line 181: each front vertex is pulled the
hard-coded fraction 0.3 of the way toward the vanishing point. -/
def backPoints (b : Box) (vanishingPoint : Point) : List Point :=
  (frontPoints b).map (fun p => p.plus ((vanishingPoint.vectorFrom p).times (3/10)))

/-- Top edge endpoints, Box.draw line 182. -/
def topPoints (b : Box) (vp : Point) : List Point :=
  [nth (frontPoints b) 1, nth (backPoints b vp) 1, nth (backPoints b vp) 2, nth (frontPoints b) 2]

/-- Bottom (ground) edge endpoints, Box.draw line 183. -/
def bottomPoints (b : Box) (vp : Point) : List Point :=
  [nth (frontPoints b) 0, nth (backPoints b vp) 0, nth (backPoints b vp) 3, nth (frontPoints b) 3]

/-- The i-th light ray, Box.draw line 192: from the light through the i-th top
point, hard-stopped at the light and open beyond the top point. -/
def lightLine (c : Config) (i : Nat) : Line :=
  ⟨c.light, nth (topPoints c.box c.vanishingPoint) i, true, false⟩

/-- The i-th ground ray, Box.draw line 195: from the light-drop point through
the i-th bottom point, hard-stopped at the drop and open beyond. -/
def lightDropLine (c : Config) (i : Nat) : Line :=
  ⟨c.lightDrop, nth (bottomPoints c.box c.vanishingPoint) i, true, false⟩

/-- The shadow vertices pushed by the i = 0..3 loop of Box.draw (lines
188-199); a parallel-lines error in any iteration aborts the draw. -/
def shadowVertices (c : Config) : Except String (List Point) := do
  let s0 ← (lightLine c 0).intersectWith (lightDropLine c 0)
  let s1 ← (lightLine c 1).intersectWith (lightDropLine c 1)
  let s2 ← (lightLine c 2).intersectWith (lightDropLine c 2)
  let s3 ← (lightLine c 3).intersectWith (lightDropLine c 3)
  return [s0, s1, s2, s3]

/-- The rendered shadow polygon, Box.draw line 202: the convex hull of the 4
shadow vertices followed by the 4 bottom points. -/
def fullShadow (c : Config) : Except String (List Point) :=
  shadowVertices c >>= fun shadow => convexHullQ (shadow ++ bottomPoints c.box c.vanishingPoint)


/-- A concrete scene (the spec's testable-properties scenario): vanishing
point (100,100), box corners (50,150) and (150,200), light (20,50),
light-drop (20,180); the Box carries the depth value 50 that Config passes. -/
def cfgC1 : Config :=
  ⟨⟨100, 100⟩, ⟨⟨50, 150⟩, ⟨150, 200⟩, 50⟩, ⟨20, 50⟩, ⟨20, 180⟩⟩

/-! ### Specification vocabulary for the convex hull -/

/-- The displacement from input point p to input point i, both by index. -/
def vecIdx (s : List Point) (p i : Nat) : Vec := (nth s i).vectorFrom (nth s p)

/-- The signed turn at b when walking a, b, c: the cross product of the edge
vectors b - a and c - b.  Under the y-down screen convention a negative turn
is a counter-clockwise turn (and a positive one clockwise). -/
def turnQ (a b c : Point) : ℚ := crossVec (b.vectorFrom a) (c.vectorFrom b)

/-- A vertex list is a strictly convex counter-clockwise polygon (y-down
convention): every cyclically consecutive vertex triple turns the same
rotational direction, counter-clockwise. -/
def convexCCW (h : List Point) : Prop :=
  ∀ t, t < h.length →
    turnQ (nth h t) (nth h ((t + 1) % h.length)) (nth h ((t + 2) % h.length)) < 0

/-- z lies inside or on the boundary of the polygon h (given in the wrap's
orientation, in which the interior is weakly to the right of every directed
edge): z is weakly right of each cyclically consecutive edge. -/
def insideOrOnHull (h : List Point) (z : Point) : Prop :=
  ∀ t, t < h.length →
    crossVec ((nth h ((t + 1) % h.length)).vectorFrom (nth h t)) (z.vectorFrom (nth h t)) ≤ 0

/-- General position of the input list: no three points at pairwise distinct
indices are collinear.  With at least 3 points this also forces all points to
be pairwise distinct. -/
def GenPos (s : List Point) : Prop :=
  ∀ i, i < s.length → ∀ j, j < s.length → ∀ k, k < s.length →
    i ≠ j → i ≠ k → j ≠ k → crossVec (vecIdx s i j) (vecIdx s i k) ≠ 0

/-- The sequence of vertex indices visited by the gift wrap: the leftmost
point first, then repeatedly the scan result. -/
def visit (s : List Point) : Nat → Nat
  | 0 => minXIndex s
  | k + 1 => scanAll s (visit s k)

/-- The wrap invariant at index p: p is in range and some nonzero direction d
has every input point weakly to its right when based at p. -/
def VisitInv (s : List Point) (p : Nat) : Prop :=
  p < s.length ∧ ∃ d : Vec, d ≠ ⟨0, 0⟩ ∧ ∀ i, i < s.length → crossVec d (vecIdx s p i) ≤ 0

/-! ### Theorems -/

-- Basic unfolding lemmas.

theorem intersectWith_error_iff (l other : Line) :
    (∃ e, l.intersectWith other = Except.error e) ↔
      crossVec l.direction other.direction = 0 := by
  unfold Line.intersectWith
  constructor
  · intro ⟨e, he⟩
    by_cases h : (l.endP.vectorFrom l.begin).y * (other.endP.vectorFrom other.begin).x -
        (l.endP.vectorFrom l.begin).x * (other.endP.vectorFrom other.begin).y = 0
    · simp only [Line.direction, crossVec, Point.vectorFrom] at h ⊢
      linarith
    · simp only [h, if_false, reduceCtorEq] at he
  · intro h
    refine ⟨"Lines are parallel", ?_⟩
    have h' : (l.endP.vectorFrom l.begin).y * (other.endP.vectorFrom other.begin).x -
        (l.endP.vectorFrom l.begin).x * (other.endP.vectorFrom other.begin).y = 0 := by
      simp only [Line.direction, crossVec, Point.vectorFrom] at h
      simp only [Point.vectorFrom]
      linarith
    simp [h']

theorem intersectWith_ok_of_cross_ne (l other : Line)
    (h : crossVec l.direction other.direction ≠ 0) :
    ∃ pt, l.intersectWith other = Except.ok pt := by
  have h' : (l.endP.vectorFrom l.begin).y * (other.endP.vectorFrom other.begin).x -
      (l.endP.vectorFrom l.begin).x * (other.endP.vectorFrom other.begin).y ≠ 0 := by
    simp only [Line.direction, crossVec, Point.vectorFrom] at h ⊢
    intro hc; apply h; linarith
  simp only [Line.intersectWith]
  rw [if_neg h']
  exact ⟨_, rfl⟩

/-- C3: intersectWith fails with the parallel-lines error exactly when the
cross product of the two direction vectors is zero; proportional directions
always error, and a nonzero cross product always yields a point. -/
theorem claim_C3_parallel_error_iff_cross_zero (l other : Line) :
    ((∃ e, l.intersectWith other = Except.error e) ↔
        crossVec l.direction other.direction = 0) ∧
      (∀ k : ℚ, other.direction = l.direction.times k →
        ∃ e, l.intersectWith other = Except.error e) ∧
      (crossVec l.direction other.direction ≠ 0 →
        ∃ pt, l.intersectWith other = Except.ok pt) := by
  refine ⟨intersectWith_error_iff l other, ?_, intersectWith_ok_of_cross_ne l other⟩
  intro k hk
  rw [intersectWith_error_iff l other, hk]
  simp only [crossVec, Vec.times]
  ring

/-- Witness for C3 at a concrete input: two lines with proportional direction
vectors error, and two lines with nonzero cross product intersect. -/
theorem claim_C3_witness :
    (Line.mk ⟨0, 0⟩ ⟨1, 2⟩ true false).direction = (Line.mk ⟨5, 5⟩ ⟨7, 9⟩ true false).direction.times (1/2) ∧
      (∃ e, (Line.mk ⟨5, 5⟩ ⟨7, 9⟩ true false).intersectWith (Line.mk ⟨0, 0⟩ ⟨1, 2⟩ true false) = Except.error e) ∧
      crossVec (Line.mk ⟨0, 0⟩ ⟨1, 0⟩ true false).direction (Line.mk ⟨0, 0⟩ ⟨0, 1⟩ true false).direction ≠ 0 ∧
      (∃ pt, (Line.mk ⟨0, 0⟩ ⟨1, 0⟩ true false).intersectWith (Line.mk ⟨0, 0⟩ ⟨0, 1⟩ true false) = Except.ok pt) := by
  have hprop : (Line.mk (Point.mk 0 0) (Point.mk 1 2) true false).direction =
      (Line.mk (Point.mk 5 5) (Point.mk 7 9) true false).direction.times (1/2) := by
    norm_num [Line.direction, Point.vectorFrom, Vec.times]
  have hcr : crossVec (Line.mk (Point.mk 0 0) (Point.mk 1 0) true false).direction
      (Line.mk (Point.mk 0 0) (Point.mk 0 1) true false).direction ≠ 0 := by
    norm_num [Line.direction, Point.vectorFrom, crossVec]
  refine ⟨hprop, ?_, hcr, ?_⟩
  · exact (claim_C3_parallel_error_iff_cross_zero
      (Line.mk ⟨5, 5⟩ ⟨7, 9⟩ true false) (Line.mk ⟨0, 0⟩ ⟨1, 2⟩ true false)).2.1 (1/2) hprop
  · exact (claim_C3_parallel_error_iff_cross_zero
      (Line.mk ⟨0, 0⟩ ⟨1, 0⟩ true false) (Line.mk ⟨0, 0⟩ ⟨0, 1⟩ true false)).2.2 hcr

theorem interDenom_eq_neg_cross (l other : Line) :
    interDenom l other = -crossVec l.direction other.direction := by
  simp only [interDenom, crossVec, Line.direction, Point.vectorFrom]
  ring

theorem intersectWith_eq_ok (l other : Line) (h : interDenom l other ≠ 0) :
    l.intersectWith other = Except.ok (interPoint l other) := by
  simp only [Line.intersectWith, interPoint, interT, interDenom] at h ⊢
  rw [if_neg h]

theorem interDenom_ne_of_cross_ne (l other : Line)
    (h : crossVec l.direction other.direction ≠ 0) : interDenom l other ≠ 0 := by
  rw [interDenom_eq_neg_cross]
  exact fun hc => h (by linarith [hc, neg_eq_zero.mp hc])

theorem interPoint_onLine_left (l other : Line) : (interPoint l other).onLine l :=
  ⟨interT l other, rfl⟩

theorem interPoint_onLine_right (l other : Line) (hden : interDenom l other ≠ 0) :
    (interPoint l other).onLine other := by
  refine ⟨((l.endP.vectorFrom l.begin).x * (other.begin.y - l.begin.y) -
      (l.endP.vectorFrom l.begin).y * (other.begin.x - l.begin.x)) / interDenom l other, ?_⟩
  simp only [interPoint, interT, interDenom, Point.plus, Point.vectorFrom, Vec.times,
    Point.mk.injEq] at hden ⊢
  constructor
  · field_simp
    ring
  · field_simp
    ring

/-- Two lines with nonzero direction cross product meet in at most one point. -/
theorem onLine_both_unique (l other : Line)
    (h : crossVec l.direction other.direction ≠ 0) (z z' : Point)
    (hz1 : z.onLine l) (hz2 : z.onLine other)
    (hz1' : z'.onLine l) (hz2' : z'.onLine other) : z = z' := by
  obtain ⟨t, ht⟩ := hz1
  obtain ⟨s, hs⟩ := hz2
  obtain ⟨t', ht'⟩ := hz1'
  obtain ⟨s', hs'⟩ := hz2'
  subst ht ht'
  have hsx := congrArg Point.x hs
  have hsy := congrArg Point.y hs
  have hsx' := congrArg Point.x hs'
  have hsy' := congrArg Point.y hs'
  simp only [Point.plus, Vec.times, Point.vectorFrom] at hsx hsy hsx' hsy'
  simp only [crossVec, Line.direction, Point.vectorFrom] at h
  have key : (t - t') * ((l.endP.x - l.begin.x) * (other.endP.y - other.begin.y) -
      (other.endP.x - other.begin.x) * (l.endP.y - l.begin.y)) = 0 := by
    linear_combination (other.endP.y - other.begin.y) * (hsx - hsx') -
      (other.endP.x - other.begin.x) * (hsy - hsy')
  have htt : t = t' := by
    rcases mul_eq_zero.mp key with h0 | h0
    · linarith
    · exact absurd h0 h
  rw [htt]

/-- C4: whenever the direction cross product is nonzero, intersectWith returns
a point lying on both infinite lines (both parametric forms hold exactly), and
the same point is returned for every setting of the four stop flags. -/
theorem claim_C4_intersection_on_both_lines (l other : Line)
    (h : crossVec l.direction other.direction ≠ 0) :
    ∃ pt, l.intersectWith other = Except.ok pt ∧ pt.onLine l ∧ pt.onLine other ∧
      ∀ b1 b2 b3 b4 : Bool,
        (Line.mk l.begin l.endP b1 b2).intersectWith (Line.mk other.begin other.endP b3 b4) =
          Except.ok pt := by
  have hden : interDenom l other ≠ 0 := interDenom_ne_of_cross_ne l other h
  refine ⟨interPoint l other, intersectWith_eq_ok l other hden,
    interPoint_onLine_left l other, interPoint_onLine_right l other hden, ?_⟩
  intro b1 b2 b3 b4
  have hflag : (Line.mk l.begin l.endP b1 b2).intersectWith
      (Line.mk other.begin other.endP b3 b4) = l.intersectWith other := rfl
  rw [hflag]
  exact intersectWith_eq_ok l other hden

/-- Witness for C4 at a concrete input: a horizontal and a vertical line. -/
theorem claim_C4_witness :
    crossVec (Line.mk ⟨0, 0⟩ ⟨2, 0⟩ true false).direction
        (Line.mk ⟨1, -1⟩ ⟨1, 2⟩ true false).direction ≠ 0 ∧
      ∃ pt, (Line.mk ⟨0, 0⟩ ⟨2, 0⟩ true false).intersectWith (Line.mk ⟨1, -1⟩ ⟨1, 2⟩ true false) =
          Except.ok pt ∧ pt.onLine (Line.mk ⟨0, 0⟩ ⟨2, 0⟩ true false) ∧
          pt.onLine (Line.mk ⟨1, -1⟩ ⟨1, 2⟩ true false) ∧
          ∀ b1 b2 b3 b4 : Bool,
            (Line.mk ⟨0, 0⟩ ⟨2, 0⟩ b1 b2).intersectWith (Line.mk ⟨1, -1⟩ ⟨1, 2⟩ b3 b4) =
              Except.ok pt := by
  have hcr : crossVec (Line.mk (Point.mk 0 0) (Point.mk 2 0) true false).direction
      (Line.mk (Point.mk 1 (-1)) (Point.mk 1 2) true false).direction ≠ 0 := by
    norm_num [Line.direction, Point.vectorFrom, crossVec]
  exact ⟨hcr, claim_C4_intersection_on_both_lines
    (Line.mk ⟨0, 0⟩ ⟨2, 0⟩ true false) (Line.mk ⟨1, -1⟩ ⟨1, 2⟩ true false) hcr⟩

/-- C10: a zero-length line (begin = end) makes intersectWith throw the
parallel-lines error in either argument position, whatever the other line. -/
theorem claim_C10_degenerate_line_always_errors (l other : Line) (h : l.begin = l.endP) :
    (∃ e, l.intersectWith other = Except.error e) ∧
      (∃ e, other.intersectWith l = Except.error e) := by
  have hdir : l.direction = ⟨0, 0⟩ := by
    simp only [Line.direction, Point.vectorFrom, ← h, sub_self]
  constructor
  · rw [intersectWith_error_iff, hdir]
    simp only [crossVec]
    ring
  · rw [intersectWith_error_iff, hdir]
    simp only [crossVec]
    ring

/-- Witness for C10: the zero-length line at (1,1) against a generic line. -/
theorem claim_C10_witness :
    (Line.mk ⟨1, 1⟩ ⟨1, 1⟩ true true).begin = (Line.mk ⟨1, 1⟩ ⟨1, 1⟩ true true).endP ∧
      (∃ e, (Line.mk ⟨1, 1⟩ ⟨1, 1⟩ true true).intersectWith (Line.mk ⟨0, 0⟩ ⟨5, 3⟩ true false) =
        Except.error e) ∧
      (∃ e, (Line.mk ⟨0, 0⟩ ⟨5, 3⟩ true false).intersectWith (Line.mk ⟨1, 1⟩ ⟨1, 1⟩ true true) =
        Except.error e) := by
  have h := claim_C10_degenerate_line_always_errors
    (Line.mk ⟨1, 1⟩ ⟨1, 1⟩ true true) (Line.mk ⟨0, 0⟩ ⟨5, 3⟩ true false) rfl
  exact ⟨rfl, h.1, h.2⟩

/-- C2: dragging LIGHT or LIGHT_DROP keeps the two x-coordinates equal after
moveTo, and the non-selected partner of the pair keeps its y-coordinate. -/
theorem claim_C2_light_coupling (cps : ControlPoints) (p : Point) (d : Vec)
    (hsel : cps.selected = some ControlPointType.LIGHT ∨
      cps.selected = some ControlPointType.LIGHT_DROP)
    (hd : cps.delta = some d) :
    ((cps.moveTo p).points ControlPointType.LIGHT).x =
        ((cps.moveTo p).points ControlPointType.LIGHT_DROP).x ∧
      (cps.selected = some ControlPointType.LIGHT →
        ((cps.moveTo p).points ControlPointType.LIGHT_DROP).y =
          (cps.points ControlPointType.LIGHT_DROP).y) ∧
      (cps.selected = some ControlPointType.LIGHT_DROP →
        ((cps.moveTo p).points ControlPointType.LIGHT).y =
          (cps.points ControlPointType.LIGHT).y) := by
  rcases hsel with hsel | hsel
  · refine ⟨?_, fun _ => ?_, fun hc => ?_⟩
    · simp [ControlPoints.moveTo, hsel, hd, mapReplace]
    · simp [ControlPoints.moveTo, hsel, hd, mapReplace]
    · rw [hsel] at hc
      exact absurd (Option.some.inj hc) (by decide)
  · refine ⟨?_, fun hc => ?_, fun _ => ?_⟩
    · simp [ControlPoints.moveTo, hsel, hd, mapReplace]
    · rw [hsel] at hc
      exact absurd (Option.some.inj hc) (by decide)
    · simp [ControlPoints.moveTo, hsel, hd, mapReplace]

/-- Witness for C2: dragging LIGHT of a concrete state to (40,50). -/
theorem claim_C2_witness :
    ∃ cps : ControlPoints, cps.selected = some ControlPointType.LIGHT ∧
      cps.delta = some ⟨0, 0⟩ ∧
      ((cps.moveTo ⟨40, 50⟩).points ControlPointType.LIGHT).x =
        ((cps.moveTo ⟨40, 50⟩).points ControlPointType.LIGHT_DROP).x ∧
      ((cps.moveTo ⟨40, 50⟩).points ControlPointType.LIGHT_DROP).y =
        (cps.points ControlPointType.LIGHT_DROP).y := by
  refine ⟨⟨fun _ => ⟨20, 180⟩, some ControlPointType.LIGHT, some ⟨0, 0⟩⟩, rfl, rfl, ?_, ?_⟩
  · exact (claim_C2_light_coupling
      ⟨fun _ => ⟨20, 180⟩, some ControlPointType.LIGHT, some ⟨0, 0⟩⟩ ⟨40, 50⟩ ⟨0, 0⟩
      (Or.inl rfl) rfl).1
  · exact (claim_C2_light_coupling
      ⟨fun _ => ⟨20, 180⟩, some ControlPointType.LIGHT, some ⟨0, 0⟩⟩ ⟨40, 50⟩ ⟨0, 0⟩
      (Or.inl rfl) rfl).2.1 rfl

/-- C9: in the dragging configuration, moveTo(p) places the selected point at
p - delta, keeps selected and delta unchanged, and leaves every other control
point in place except the coupled LIGHT/LIGHT_DROP partner. -/
theorem claim_C9_moveTo_frame_effect (cps : ControlPoints) (p : Point) (k : ControlPointType)
    (d : Vec) (hsel : cps.selected = some k) (hd : cps.delta = some d) :
    (cps.moveTo p).points k = p.minus d ∧
      (cps.moveTo p).selected = cps.selected ∧
      (cps.moveTo p).delta = cps.delta ∧
      ∀ k' : ControlPointType, k' ≠ k →
        ¬(k = ControlPointType.LIGHT ∧ k' = ControlPointType.LIGHT_DROP) →
        ¬(k = ControlPointType.LIGHT_DROP ∧ k' = ControlPointType.LIGHT) →
        (cps.moveTo p).points k' = cps.points k' := by
  refine ⟨?_, ?_, ?_, ?_⟩
  · cases k <;> simp [ControlPoints.moveTo, hsel, hd, mapReplace]
  · simp [ControlPoints.moveTo, hsel, hd]
  · simp [ControlPoints.moveTo, hsel, hd]
  · intro k' hne hc1 hc2
    cases k <;> cases k' <;>
      simp_all [ControlPoints.moveTo, hsel, hd, mapReplace]

/-- Witness for C9: dragging the vanishing point of a concrete state with zero
offset to (110,100) relocates it there and leaves the other points unchanged. -/
theorem claim_C9_witness :
    ∃ cps : ControlPoints, cps.selected = some ControlPointType.VANISHING_POINT ∧
      cps.delta = some ⟨0, 0⟩ ∧
      (cps.moveTo ⟨110, 100⟩).points ControlPointType.VANISHING_POINT =
        Point.mk 110 100 ∧
      (cps.moveTo ⟨110, 100⟩).points ControlPointType.LIGHT =
        cps.points ControlPointType.LIGHT := by
  refine ⟨⟨fun _ => ⟨100, 100⟩, some ControlPointType.VANISHING_POINT, some ⟨0, 0⟩⟩,
    rfl, rfl, ?_, ?_⟩
  · have h := (claim_C9_moveTo_frame_effect
      ⟨fun _ => ⟨100, 100⟩, some ControlPointType.VANISHING_POINT, some ⟨0, 0⟩⟩ ⟨110, 100⟩
      ControlPointType.VANISHING_POINT ⟨0, 0⟩ rfl rfl).1
    rw [h]
    norm_num [Point.minus]
  · exact (claim_C9_moveTo_frame_effect
      ⟨fun _ => ⟨100, 100⟩, some ControlPointType.VANISHING_POINT, some ⟨0, 0⟩⟩ ⟨110, 100⟩
      ControlPointType.VANISHING_POINT ⟨0, 0⟩ rfl rfl).2.2.2
      ControlPointType.LIGHT (by decide) (by decide) (by decide)

/-- C8 counterexample: on the Box that Config always builds (stored depth 50),
the first back vertex is front + 0.3 * (VP - front), which differs from
front + depth * (VP - front) for the Box's stored depth value; so the offset
fraction is not the Box's depth-factor value. -/
theorem claim_C8_counterexample :
    (configOf ⟨fun _ => ⟨10, 10⟩, none, none⟩).box.depth = 50 ∧
      nth (backPoints (Box.mk ⟨10, 10⟩ ⟨20, 20⟩ 50) ⟨0, 0⟩) 0 = ⟨7, 7⟩ ∧
      (Box.mk ⟨10, 10⟩ ⟨20, 20⟩ (50 : ℚ)).p1.plus
          (((Point.mk 0 0).vectorFrom (Box.mk ⟨10, 10⟩ ⟨20, 20⟩ (50 : ℚ)).p1).times
            (Box.mk ⟨10, 10⟩ ⟨20, 20⟩ (50 : ℚ)).depth) = ⟨-490, -490⟩ ∧
      (⟨7, 7⟩ : Point) ≠ ⟨-490, -490⟩ := by
  refine ⟨rfl, ?_, ?_, ?_⟩
  · norm_num [backPoints, frontPoints, nth, Point.plus, Point.vectorFrom, Vec.times]
  · norm_num [Point.plus, Point.vectorFrom, Vec.times]
  · intro hc
    have := congrArg Point.x hc
    norm_num at this

/-- C8 amended: each back-face vertex is the corresponding front vertex offset
by the hard-coded fraction 0.3 of the way toward the vanishing point; the
Box's stored depth value (always 50, as Config builds it) is never consulted,
so the back face is independent of it. -/
theorem claim_C8_back_face_interpolation (b : Box) (vp : Point) :
    (backPoints b vp).length = 4 ∧
      (∀ i, i < 4 → nth (backPoints b vp) i =
        (nth (frontPoints b) i).plus ((vp.vectorFrom (nth (frontPoints b) i)).times (3/10))) ∧
      (∀ d : ℚ, backPoints (Box.mk b.p1 b.p2 d) vp = backPoints b vp) ∧
      ∀ cps : ControlPoints, (configOf cps).box.depth = 50 := by
  refine ⟨rfl, ?_, fun d => rfl, fun cps => rfl⟩
  intro i hi
  interval_cases i <;> rfl

/-- Witness for C8's amended theorem at a concrete box and index. -/
theorem claim_C8_witness :
    (0 : Nat) < 4 ∧
      nth (backPoints (Box.mk ⟨10, 10⟩ ⟨20, 20⟩ 50) ⟨0, 0⟩) 0 =
        (nth (frontPoints (Box.mk ⟨10, 10⟩ ⟨20, 20⟩ 50)) 0).plus
          (((Point.mk 0 0).vectorFrom (nth (frontPoints (Box.mk ⟨10, 10⟩ ⟨20, 20⟩ 50)) 0)).times
            (3/10)) :=
  ⟨by norm_num,
    (claim_C8_back_face_interpolation (Box.mk ⟨10, 10⟩ ⟨20, 20⟩ 50) ⟨0, 0⟩).2.1 0 (by norm_num)⟩

/-- C1: with all four ray pairs non-parallel, Box.draw's shadow loop succeeds;
each produced shadow vertex lies on both the infinite line from the light
through the matching top point and the infinite line from the light-drop
point through the matching bottom point, and is the unique such common point;
and the rendered shadow polygon is the convex hull of the 4 shadow vertices
followed by the 4 bottom points. -/
theorem claim_C1_shadow_construction (c : Config)
    (h : ∀ i, i < 4 → crossVec (lightLine c i).direction (lightDropLine c i).direction ≠ 0) :
    frontPoints c.box = [c.box.p1, ⟨c.box.p1.x, c.box.p2.y⟩, c.box.p2, ⟨c.box.p2.x, c.box.p1.y⟩] ∧
      backPoints c.box c.vanishingPoint = (frontPoints c.box).map
        (fun p => p.plus ((c.vanishingPoint.vectorFrom p).times (3/10))) ∧
      ∃ sv : List Point, shadowVertices c = Except.ok sv ∧ sv.length = 4 ∧
        (∀ i, i < 4 →
          (nth sv i).onLine (lightLine c i) ∧ (nth sv i).onLine (lightDropLine c i) ∧
          ∀ z : Point, z.onLine (lightLine c i) → z.onLine (lightDropLine c i) → z = nth sv i) ∧
        fullShadow c = convexHullQ (sv ++ bottomPoints c.box c.vanishingPoint) := by
  have hden : ∀ i, i < 4 → interDenom (lightLine c i) (lightDropLine c i) ≠ 0 :=
    fun i hi => interDenom_ne_of_cross_ne _ _ (h i hi)
  have hok : ∀ i, i < 4 → (lightLine c i).intersectWith (lightDropLine c i) =
      Except.ok (interPoint (lightLine c i) (lightDropLine c i)) :=
    fun i hi => intersectWith_eq_ok _ _ (hden i hi)
  refine ⟨rfl, rfl, [interPoint (lightLine c 0) (lightDropLine c 0),
    interPoint (lightLine c 1) (lightDropLine c 1),
    interPoint (lightLine c 2) (lightDropLine c 2),
    interPoint (lightLine c 3) (lightDropLine c 3)], ?_, rfl, ?_, ?_⟩
  · simp only [shadowVertices, hok 0 (by norm_num), hok 1 (by norm_num), hok 2 (by norm_num),
      hok 3 (by norm_num)]
    rfl
  · intro i hi
    have hon : ∀ j, j < 4 → (interPoint (lightLine c j) (lightDropLine c j)).onLine (lightLine c j) ∧
        (interPoint (lightLine c j) (lightDropLine c j)).onLine (lightDropLine c j) :=
      fun j hj => ⟨interPoint_onLine_left _ _, interPoint_onLine_right _ _ (hden j hj)⟩
    interval_cases i
    · exact ⟨(hon 0 (by norm_num)).1, (hon 0 (by norm_num)).2, fun z hz1 hz2 =>
        onLine_both_unique _ _ (h 0 (by norm_num)) z _ hz1 hz2
          (hon 0 (by norm_num)).1 (hon 0 (by norm_num)).2⟩
    · exact ⟨(hon 1 (by norm_num)).1, (hon 1 (by norm_num)).2, fun z hz1 hz2 =>
        onLine_both_unique _ _ (h 1 (by norm_num)) z _ hz1 hz2
          (hon 1 (by norm_num)).1 (hon 1 (by norm_num)).2⟩
    · exact ⟨(hon 2 (by norm_num)).1, (hon 2 (by norm_num)).2, fun z hz1 hz2 =>
        onLine_both_unique _ _ (h 2 (by norm_num)) z _ hz1 hz2
          (hon 2 (by norm_num)).1 (hon 2 (by norm_num)).2⟩
    · exact ⟨(hon 3 (by norm_num)).1, (hon 3 (by norm_num)).2, fun z hz1 hz2 =>
        onLine_both_unique _ _ (h 3 (by norm_num)) z _ hz1 hz2
          (hon 3 (by norm_num)).1 (hon 3 (by norm_num)).2⟩
  · simp only [fullShadow, shadowVertices, hok 0 (by norm_num), hok 1 (by norm_num),
      hok 2 (by norm_num), hok 3 (by norm_num)]
    rfl

/-- Witness for C1 at the concrete scene cfgC1: all four ray pairs are
non-parallel and the shadow construction succeeds as described. -/
theorem claim_C1_witness :
    (∀ i, i < 4 → crossVec (lightLine cfgC1 i).direction (lightDropLine cfgC1 i).direction ≠ 0) ∧
      frontPoints cfgC1.box =
        [cfgC1.box.p1, ⟨cfgC1.box.p1.x, cfgC1.box.p2.y⟩, cfgC1.box.p2,
          ⟨cfgC1.box.p2.x, cfgC1.box.p1.y⟩] ∧
      backPoints cfgC1.box cfgC1.vanishingPoint = (frontPoints cfgC1.box).map
        (fun p => p.plus ((cfgC1.vanishingPoint.vectorFrom p).times (3/10))) ∧
      ∃ sv : List Point, shadowVertices cfgC1 = Except.ok sv ∧ sv.length = 4 ∧
        (∀ i, i < 4 →
          (nth sv i).onLine (lightLine cfgC1 i) ∧ (nth sv i).onLine (lightDropLine cfgC1 i) ∧
          ∀ z : Point, z.onLine (lightLine cfgC1 i) → z.onLine (lightDropLine cfgC1 i) →
            z = nth sv i) ∧
        fullShadow cfgC1 = convexHullQ (sv ++ bottomPoints cfgC1.box cfgC1.vanishingPoint) := by
  have hcr : ∀ i, i < 4 →
      crossVec (lightLine cfgC1 i).direction (lightDropLine cfgC1 i).direction ≠ 0 := by
    intro i hi
    interval_cases i <;>
      norm_num [cfgC1, lightLine, lightDropLine, topPoints, bottomPoints, backPoints,
        frontPoints, nth, crossVec, Line.direction, Point.vectorFrom, Point.plus, Vec.times]
  exact ⟨hcr, claim_C1_shadow_construction cfgC1 hcr⟩

/-! ### Convex hull: evaluation results and structural lemmas -/

/-- C5 counterexample: on the collinear input [(0,0),(1,0),(2,0)] the hull
routine returns all three points, and the resulting "polygon" has a
consecutive triple with zero turn, so it is not a strictly convex
counter-clockwise polygon as the claim requires. -/
theorem claim_C5_counterexample :
    convexHullQ [⟨0, 0⟩, ⟨1, 0⟩, ⟨2, 0⟩] = Except.ok [⟨0, 0⟩, ⟨1, 0⟩, ⟨2, 0⟩] ∧
      ¬ convexCCW [⟨0, 0⟩, ⟨1, 0⟩, ⟨2, 0⟩] := by
  constructor
  · norm_num [convexHullQ, minXIndex, minXLoop, wrapLoop, scanAll, scanLoop, isOnLeftOf, nth,
      Point.vectorFrom, Point.mk.injEq, List.range, List.range', List.range.loop]
  · intro hcc
    have h0 := hcc 0 (by norm_num)
    norm_num [turnQ, crossVec, nth, Point.vectorFrom] at h0

/-- C7: on the input [(0,1),(0,0),(0,2),(1,1)] the gift wrap never returns to
its starting index (the scan from the last visited vertex still points at
index 1, not at the leftmost index 0), the safety bound |s| + 1 is exhausted,
and convexHull silently returns the truncated 5-entry vertex list instead of
reporting an internal error. -/
theorem claim_C7_truncated_wrap_returns_silently :
    convexHullQ [⟨0, 1⟩, ⟨0, 0⟩, ⟨0, 2⟩, ⟨1, 1⟩] =
        Except.ok [⟨0, 1⟩, ⟨1, 1⟩, ⟨0, 0⟩, ⟨0, 2⟩, ⟨1, 1⟩] ∧
      minXIndex [⟨0, 1⟩, ⟨0, 0⟩, ⟨0, 2⟩, ⟨1, 1⟩] = 0 ∧
      scanAll [⟨0, 1⟩, ⟨0, 0⟩, ⟨0, 2⟩, ⟨1, 1⟩] 3 = 1 := by
  refine ⟨?_, ?_, ?_⟩
  · norm_num [convexHullQ, minXIndex, minXLoop, wrapLoop, scanAll, scanLoop, isOnLeftOf, nth,
      Point.vectorFrom, Point.mk.injEq, List.range, List.range', List.range.loop]
  · norm_num [minXIndex, minXLoop, nth, Point.vectorFrom, Point.mk.injEq, List.range']
  · norm_num [scanAll, scanLoop, isOnLeftOf, nth, Point.vectorFrom, Point.mk.injEq,
      List.range, List.range.loop]

theorem isOnLeftOf_iff (p1 p2 p : Point) :
    isOnLeftOf p1 p2 p = true ↔ 0 < crossVec (p2.vectorFrom p1) (p.vectorFrom p1) := by
  unfold isOnLeftOf
  by_cases hg : p1 = p2 ∨ p = p1 ∨ p = p2
  · rw [if_pos hg]
    simp only [Bool.false_eq_true, false_iff, not_lt]
    have hzero : crossVec (p2.vectorFrom p1) (p.vectorFrom p1) = 0 := by
      rcases hg with h | h | h <;> subst h <;> (simp only [crossVec, Point.vectorFrom]; ring)
    rw [hzero]
  · rw [if_neg hg]
    simp [crossVec, Point.vectorFrom]

theorem isOnLeftOf_self_third (a b : Point) : isOnLeftOf a b a = false := by
  unfold isOnLeftOf
  rw [if_pos (Or.inr (Or.inl rfl))]

-- The left-most index scan.

theorem minXLoop_go (s : List Point) :
    ∀ m k l, k + m = s.length → l < k →
      (∀ j, j < k → (nth s l).x ≤ (nth s j).x) →
      (∀ j, j < l → (nth s l).x < (nth s j).x) →
      minXLoop s (List.range' k m) l < s.length ∧
        (∀ i, i < s.length → (nth s (minXLoop s (List.range' k m) l)).x ≤ (nth s i).x) ∧
        (∀ j, j < minXLoop s (List.range' k m) l →
          (nth s (minXLoop s (List.range' k m) l)).x < (nth s j).x) := by
  intro m
  induction m with
  | zero =>
    intro k l hk hlk hmin hfirst
    simp only [List.range', minXLoop]
    exact ⟨by omega, fun i hi => hmin i (by omega), hfirst⟩
  | succ m ih =>
    intro k l hk hlk hmin hfirst
    rw [List.range'_succ]
    simp only [minXLoop]
    by_cases hc : (nth s k).x < (nth s l).x
    · rw [if_pos hc]
      refine ih (k + 1) k (by omega) (by omega) ?_ ?_
      · intro j hj
        rcases Nat.lt_or_ge j k with hjk | hjk
        · exact le_of_lt (lt_of_lt_of_le hc (hmin j hjk))
        · have : j = k := by omega
          subst this
          exact le_refl _
      · intro j hj
        exact lt_of_lt_of_le hc (hmin j hj)
    · rw [if_neg hc]
      refine ih (k + 1) l (by omega) (by omega) ?_ hfirst
      intro j hj
      rcases Nat.lt_or_ge j k with hjk | hjk
      · exact hmin j hjk
      · have : j = k := by omega
        subst this
        exact le_of_not_lt hc

theorem minXIndex_spec (s : List Point) (h1 : 1 ≤ s.length) :
    minXIndex s < s.length ∧
      (∀ i, i < s.length → (nth s (minXIndex s)).x ≤ (nth s i).x) ∧
      (∀ j, j < minXIndex s → (nth s (minXIndex s)).x < (nth s j).x) := by
  unfold minXIndex
  refine minXLoop_go s (s.length - 1) 1 0 (by omega) (by omega) ?_ ?_
  · intro j hj
    have hj0 : j = 0 := by omega
    subst hj0
    exact le_refl _
  · intro j hj
    exact absurd hj (Nat.not_lt_zero j)

-- Structural facts about the wrap loop.

theorem wrapLoop_append (s : List Point) (l : Nat) :
    ∀ M p acc, wrapLoop s l M p acc = acc ++ wrapLoop s l M p []
  | 0, p, acc => by simp [wrapLoop]
  | 1, p, acc => by simp [wrapLoop]
  | m + 2, p, acc => by
      simp only [wrapLoop]
      by_cases hq : scanAll s p = l
      · simp [hq]
      · simp only [if_neg hq]
        rw [wrapLoop_append s l (m + 1) (scanAll s p) (acc ++ [nth s p]),
          wrapLoop_append s l (m + 1) (scanAll s p) ([] ++ [nth s p])]
        simp

theorem wrapLoop_cons (s : List Point) (l M p : Nat) (acc : List Point) :
    ∃ rest, wrapLoop s l M p acc = acc ++ nth s p :: rest := by
  match M with
  | 0 => exact ⟨[], rfl⟩
  | 1 => exact ⟨[], rfl⟩
  | m + 2 =>
    by_cases hq : scanAll s p = l
    · exact ⟨[], by simp [wrapLoop, hq]⟩
    · refine ⟨wrapLoop s l (m + 1) (scanAll s p) [], ?_⟩
      simp only [wrapLoop, if_neg hq]
      rw [wrapLoop_append s l (m + 1) (scanAll s p) (acc ++ [nth s p])]
      simp

/-- C6: for at least 3 input points, convexHull succeeds with a non-empty
vertex list whose first element is the input point at index minXIndex, which
attains the minimum x-coordinate and is the first input point to do so. -/
theorem claim_C6_starts_at_first_min_x (s : List Point) (h3 : 3 ≤ s.length) :
    ∃ h, convexHullQ s = Except.ok h ∧ h ≠ [] ∧ h.head? = some (nth s (minXIndex s)) ∧
      minXIndex s < s.length ∧
      (∀ i, i < s.length → (nth s (minXIndex s)).x ≤ (nth s i).x) ∧
      (∀ j, j < minXIndex s → (nth s (minXIndex s)).x < (nth s j).x) := by
  have hmx := minXIndex_spec s (by omega)
  have hh : convexHullQ s =
      Except.ok (wrapLoop s (minXIndex s) (s.length + 1) (minXIndex s) []) := by
    unfold convexHullQ
    rw [if_neg (by omega)]
  obtain ⟨rest, hrest⟩ := wrapLoop_cons s (minXIndex s) (s.length + 1) (minXIndex s) []
  rw [hrest] at hh
  refine ⟨_, hh, ?_, ?_, hmx.1, hmx.2.1, hmx.2.2⟩
  · simp
  · simp

/-- Witness for C6 on a concrete input with a minimum-x tie: the hull starts
at the first of the two points with x = 1. -/
theorem claim_C6_witness :
    3 ≤ ([⟨5, 0⟩, ⟨1, 1⟩, ⟨1, 7⟩] : List Point).length ∧
      ∃ h, convexHullQ [⟨5, 0⟩, ⟨1, 1⟩, ⟨1, 7⟩] = Except.ok h ∧ h ≠ [] ∧
        h.head? = some (nth [⟨5, 0⟩, ⟨1, 1⟩, ⟨1, 7⟩] (minXIndex [⟨5, 0⟩, ⟨1, 1⟩, ⟨1, 7⟩])) ∧
        minXIndex [⟨5, 0⟩, ⟨1, 1⟩, ⟨1, 7⟩] < ([⟨5, 0⟩, ⟨1, 1⟩, ⟨1, 7⟩] : List Point).length ∧
        (∀ i, i < ([⟨5, 0⟩, ⟨1, 1⟩, ⟨1, 7⟩] : List Point).length →
          (nth [⟨5, 0⟩, ⟨1, 1⟩, ⟨1, 7⟩] (minXIndex [⟨5, 0⟩, ⟨1, 1⟩, ⟨1, 7⟩])).x ≤
            (nth [⟨5, 0⟩, ⟨1, 1⟩, ⟨1, 7⟩] i).x) ∧
        (∀ j, j < minXIndex [⟨5, 0⟩, ⟨1, 1⟩, ⟨1, 7⟩] →
          (nth [⟨5, 0⟩, ⟨1, 1⟩, ⟨1, 7⟩] (minXIndex [⟨5, 0⟩, ⟨1, 1⟩, ⟨1, 7⟩])).x <
            (nth [⟨5, 0⟩, ⟨1, 1⟩, ⟨1, 7⟩] j).x) :=
  ⟨by norm_num, claim_C6_starts_at_first_min_x [⟨5, 0⟩, ⟨1, 1⟩, ⟨1, 7⟩] (by norm_num)⟩

-- Cross-product algebra used by the gift-wrap correctness argument.

theorem crossVec_self (u : Vec) : crossVec u u = 0 := by
  simp only [crossVec]
  ring

theorem crossVec_swap (u v : Vec) : crossVec v u = -crossVec u v := by
  simp only [crossVec]
  ring

/-- Two vectors both parallel to a nonzero vector are parallel to each other. -/
theorem cross_zero_trans (d u v : Vec) (hd : d ≠ ⟨0, 0⟩)
    (hu : crossVec d u = 0) (hv : crossVec d v = 0) : crossVec u v = 0 := by
  have hx : crossVec u v * d.x = crossVec d v * u.x - crossVec d u * v.x := by
    simp only [crossVec]
    ring
  have hy : crossVec u v * d.y = crossVec d v * u.y - crossVec d u * v.y := by
    simp only [crossVec]
    ring
  rw [hu, hv] at hx hy
  simp only [zero_mul, sub_zero] at hx hy
  by_cases hdx : d.x = 0
  · have hdy : d.y ≠ 0 := by
      intro hdy
      exact hd (by cases d; simp_all)
    exact (mul_eq_zero.mp hy).resolve_right hdy
  · exact (mul_eq_zero.mp hx).resolve_right hdx

/-- Half-plane transitivity: for vectors u, v, w weakly right of a nonzero
direction d, the strict angular order given by the cross product is
transitive (stated contrapositively, as non-negativity of the closing
cross product). -/
theorem cross_halfplane_trans (d u v w : Vec) (hd : d ≠ ⟨0, 0⟩)
    (hu : crossVec d u ≤ 0) (hv : crossVec d v ≤ 0) (hw : crossVec d w ≤ 0)
    (huv : 0 < crossVec u v) (hvw : 0 < crossVec v w) : 0 ≤ crossVec u w := by
  by_contra hlt
  push_neg at hlt
  have key : crossVec u v * crossVec d w - crossVec u w * crossVec d v +
      crossVec v w * crossVec d u = 0 := by
    simp only [crossVec]
    ring
  rcases lt_or_eq_of_le hv with hdv | hdv
  · have h1 : crossVec u v * crossVec d w ≤ 0 := mul_nonpos_iff.mpr (Or.inl ⟨huv.le, hw⟩)
    have h2 : crossVec v w * crossVec d u ≤ 0 := mul_nonpos_iff.mpr (Or.inl ⟨hvw.le, hu⟩)
    have h3 : 0 < crossVec u w * crossVec d v := mul_pos_of_neg_of_neg hlt hdv
    linarith
  · have h1 : crossVec u v * crossVec d w ≤ 0 := mul_nonpos_iff.mpr (Or.inl ⟨huv.le, hw⟩)
    have h2 : crossVec v w * crossVec d u ≤ 0 := mul_nonpos_iff.mpr (Or.inl ⟨hvw.le, hu⟩)
    rw [hdv, mul_zero, sub_zero] at key
    have h4 : crossVec v w * crossVec d u = 0 := by linarith
    have hdu : crossVec d u = 0 :=
      (mul_eq_zero.mp h4).resolve_left (ne_of_gt hvw)
    have huv0 : crossVec u v = 0 := cross_zero_trans d u v hd hdu hdv
    exact absurd huv0 (ne_of_gt huv)

/-- The single-pass candidate update of the scan is sound: if i strictly
beats the current candidate q, then every point already dominated by q is
also dominated by i.  Needs general position and the half-plane invariant. -/
theorem scan_step (s : List Point) (hgp : GenPos s) (p : Nat) (hp : p < s.length)
    (d : Vec) (hd : d ≠ ⟨0, 0⟩) (hhp : ∀ i, i < s.length → crossVec d (vecIdx s p i) ≤ 0)
    (q i j : Nat) (hq : q < s.length) (hi : i < s.length) (hj : j < s.length)
    (hbeat : 0 < crossVec (vecIdx s p q) (vecIdx s p i))
    (hdom : crossVec (vecIdx s p q) (vecIdx s p j) ≤ 0) :
    crossVec (vecIdx s p i) (vecIdx s p j) ≤ 0 := by
  by_contra hlt
  push_neg at hlt
  have h0 : 0 ≤ crossVec (vecIdx s p q) (vecIdx s p j) :=
    cross_halfplane_trans d _ _ _ hd (hhp q hq) (hhp i hi) (hhp j hj) hbeat hlt
  have heq : crossVec (vecIdx s p q) (vecIdx s p j) = 0 := le_antisymm hdom h0
  by_cases hqp : q = p
  · subst hqp
    have hz : crossVec (vecIdx s q q) (vecIdx s q i) = 0 := by
      simp only [crossVec, vecIdx, Point.vectorFrom]
      ring
    rw [hz] at hbeat
    exact absurd hbeat (lt_irrefl 0)
  · by_cases hjp : j = p
    · subst hjp
      have hz : crossVec (vecIdx s j i) (vecIdx s j j) = 0 := by
        simp only [crossVec, vecIdx, Point.vectorFrom]
        ring
      rw [hz] at hlt
      exact absurd hlt (lt_irrefl 0)
    · by_cases hjq : j = q
      · subst hjq
        rw [crossVec_swap] at hlt
        linarith
      · exact hgp p hp q hq j hj (fun h => hqp h.symm) (fun h => hjp h.symm)
          (fun h => hjq h.symm) heq

/-- The inner scan preserves domination and ends dominating every scanned
index, given general position and the half-plane invariant at p. -/
theorem scanLoop_spec (s : List Point) (hgp : GenPos s) (p : Nat) (hp : p < s.length)
    (d : Vec) (hd : d ≠ ⟨0, 0⟩) (hhp : ∀ i, i < s.length → crossVec d (vecIdx s p i) ≤ 0) :
    ∀ rest q, (∀ i ∈ rest, i < s.length) → q < s.length →
      scanLoop s p rest q < s.length ∧
        (∀ j, j < s.length → crossVec (vecIdx s p q) (vecIdx s p j) ≤ 0 →
          crossVec (vecIdx s p (scanLoop s p rest q)) (vecIdx s p j) ≤ 0) ∧
        (∀ i ∈ rest, crossVec (vecIdx s p (scanLoop s p rest q)) (vecIdx s p i) ≤ 0) := by
  intro rest
  induction rest with
  | nil =>
    intro q hrest hq
    exact ⟨hq, fun j _ h => h, by simp⟩
  | cons i rest ih =>
    intro q hrest hq
    have hi : i < s.length := hrest i (List.mem_cons_self i rest)
    have hrest' : ∀ x ∈ rest, x < s.length := fun x hx => hrest x (List.mem_cons_of_mem i hx)
    simp only [scanLoop]
    by_cases hb : isOnLeftOf (nth s p) (nth s q) (nth s i) = true
    · rw [if_pos hb]
      have hbeat : 0 < crossVec (vecIdx s p q) (vecIdx s p i) :=
        (isOnLeftOf_iff (nth s p) (nth s q) (nth s i)).mp hb
      obtain ⟨h1, h2, h3⟩ := ih i hrest' hi
      refine ⟨h1, ?_, ?_⟩
      · intro j hj hdomq
        exact h2 j hj (scan_step s hgp p hp d hd hhp q i j hq hi hj hbeat hdomq)
      · intro x hx
        rcases List.mem_cons.mp hx with hxi | hxr
        · subst hxi
          exact h2 x hi (le_of_eq (crossVec_self _))
        · exact h3 x hxr
    · rw [if_neg hb]
      have hnb : crossVec (vecIdx s p q) (vecIdx s p i) ≤ 0 := by
        have := (isOnLeftOf_iff (nth s p) (nth s q) (nth s i)).not.mp hb
        exact not_lt.mp this
      obtain ⟨h1, h2, h3⟩ := ih q hrest' hq
      refine ⟨h1, h2, ?_⟩
      intro x hx
      rcases List.mem_cons.mp hx with hxi | hxr
      · subst hxi
        exact h2 x hi hnb
      · exact h3 x hxr

/-- The scan result never equals the base index p: the candidate only moves
to indices that strictly beat the old one, which s[p] itself never does. -/
theorem scanLoop_ne (s : List Point) (p : Nat) :
    ∀ rest q, q ≠ p → scanLoop s p rest q ≠ p := by
  intro rest
  induction rest with
  | nil => intro q hq; exact hq
  | cons i rest ih =>
    intro q hq
    simp only [scanLoop]
    by_cases hb : isOnLeftOf (nth s p) (nth s q) (nth s i) = true
    · rw [if_pos hb]
      refine ih i ?_
      intro hip
      subst hip
      rw [isOnLeftOf_self_third] at hb
      exact Bool.false_ne_true hb
    · rw [if_neg hb]
      exact ih q hq

theorem mod_succ_ne (p n : Nat) (hp : p < n) (hn : 2 ≤ n) : (p + 1) % n ≠ p := by
  rcases Nat.lt_or_ge (p + 1) n with h | h
  · rw [Nat.mod_eq_of_lt h]
    omega
  · have hpn : p + 1 = n := by omega
    rw [hpn, Nat.mod_self]
    omega

/-- Full specification of one gift-wrap candidate selection from p, under
general position and the half-plane invariant: the result is in range,
differs from p, and weakly dominates every input point. -/
theorem scanAll_spec (s : List Point) (hgp : GenPos s) (h3 : 3 ≤ s.length)
    (p : Nat) (hp : p < s.length)
    (d : Vec) (hd : d ≠ ⟨0, 0⟩) (hhp : ∀ i, i < s.length → crossVec d (vecIdx s p i) ≤ 0) :
    scanAll s p < s.length ∧ scanAll s p ≠ p ∧
      ∀ i, i < s.length → crossVec (vecIdx s p (scanAll s p)) (vecIdx s p i) ≤ 0 := by
  unfold scanAll
  have hq0lt : (p + 1) % s.length < s.length := Nat.mod_lt _ (by omega)
  have hq0ne : (p + 1) % s.length ≠ p := mod_succ_ne p s.length hp (by omega)
  obtain ⟨h1, _, h3'⟩ := scanLoop_spec s hgp p hp d hd hhp (List.range s.length)
    ((p + 1) % s.length) (fun i hi => List.mem_range.mp hi) hq0lt
  exact ⟨h1, scanLoop_ne s p (List.range s.length) _ hq0ne,
    fun i hi => h3' i (List.mem_range.mpr hi)⟩

-- Properties of the visit sequence of the wrap.

theorem exists_third (i j : Nat) : ∃ k, k < 3 ∧ k ≠ i ∧ k ≠ j := by
  by_cases h0 : i = 0 ∨ j = 0
  · by_cases h1 : i = 1 ∨ j = 1
    · exact ⟨2, by omega, by omega, by omega⟩
    · push_neg at h1
      exact ⟨1, by omega, by omega, by omega⟩
  · push_neg at h0
    exact ⟨0, by omega, by omega, by omega⟩

/-- With at least 3 points, general position forces pairwise distinct points. -/
theorem genPos_distinct (s : List Point) (hgp : GenPos s) (h3 : 3 ≤ s.length) :
    ∀ i j, i < s.length → j < s.length → i ≠ j → nth s i ≠ nth s j := by
  intro i j hi hj hij heq
  obtain ⟨k, hk3, hki, hkj⟩ := exists_third i j
  have hk : k < s.length := by omega
  have hvz : vecIdx s i j = ⟨0, 0⟩ := by
    simp only [vecIdx, Point.vectorFrom, ← heq, sub_self]
  have hz : crossVec (vecIdx s i j) (vecIdx s i k) = 0 := by
    rw [hvz]
    simp only [crossVec]
    ring
  exact hgp i hi j hj k hk hij (fun h => hki h.symm) (fun h => hkj h.symm) hz

theorem crossVec_rebase (s : List Point) (p q i : Nat) :
    crossVec (vecIdx s p q) (vecIdx s q i) = crossVec (vecIdx s p q) (vecIdx s p i) := by
  simp only [crossVec, vecIdx, Point.vectorFrom]
  ring

theorem crossVec_reverse_base (s : List Point) (p q i : Nat) :
    crossVec (vecIdx s q p) (vecIdx s q i) = -crossVec (vecIdx s p q) (vecIdx s p i) := by
  simp only [crossVec, vecIdx, Point.vectorFrom]
  ring

theorem minX_halfplane (s : List Point) (h1 : 1 ≤ s.length) :
    ∀ i, i < s.length → crossVec ⟨0, 1⟩ (vecIdx s (minXIndex s) i) ≤ 0 := by
  intro i hi
  have hmx := (minXIndex_spec s h1).2.1 i hi
  simp only [crossVec, vecIdx, Point.vectorFrom]
  nlinarith [hmx]

theorem visitInv_zero (s : List Point) (h1 : 1 ≤ s.length) : VisitInv s (visit s 0) := by
  refine ⟨(minXIndex_spec s h1).1, ⟨0, 1⟩, ?_, minX_halfplane s h1⟩
  intro hc
  have := congrArg Vec.y hc
  norm_num at this

theorem visit_succ_spec (s : List Point) (hgp : GenPos s) (h3 : 3 ≤ s.length) (k : Nat)
    (hinv : VisitInv s (visit s k)) :
    visit s (k + 1) < s.length ∧ visit s (k + 1) ≠ visit s k ∧
      (∀ i, i < s.length →
        crossVec (vecIdx s (visit s k) (visit s (k + 1))) (vecIdx s (visit s k) i) ≤ 0) ∧
      VisitInv s (visit s (k + 1)) := by
  obtain ⟨hp, d, hd, hhp⟩ := hinv
  obtain ⟨h1, h2, h3'⟩ := scanAll_spec s hgp h3 (visit s k) hp d hd hhp
  have hv1 : visit s (k + 1) = scanAll s (visit s k) := rfl
  rw [← hv1] at h1 h2 h3'
  refine ⟨h1, h2, h3', h1, vecIdx s (visit s k) (visit s (k + 1)), ?_, ?_⟩
  · intro hc
    have hpts : nth s (visit s (k + 1)) = nth s (visit s k) := by
      have hx := congrArg Vec.x hc
      have hy := congrArg Vec.y hc
      simp only [vecIdx, Point.vectorFrom] at hx hy
      have hxx : (nth s (visit s (k + 1))).x = (nth s (visit s k)).x := by linarith
      have hyy : (nth s (visit s (k + 1))).y = (nth s (visit s k)).y := by linarith
      have : (⟨(nth s (visit s (k + 1))).x, (nth s (visit s (k + 1))).y⟩ : Point) =
          ⟨(nth s (visit s k)).x, (nth s (visit s k)).y⟩ := by rw [hxx, hyy]
      exact this
    exact genPos_distinct s hgp h3 (visit s (k + 1)) (visit s k) h1 hp h2 hpts
  · intro i hi
    rw [crossVec_rebase]
    exact h3' i hi

theorem visit_inv_all (s : List Point) (hgp : GenPos s) (h3 : 3 ≤ s.length) :
    ∀ k, VisitInv s (visit s k) := by
  intro k
  induction k with
  | zero => exact visitInv_zero s (by omega)
  | succ k ih => exact (visit_succ_spec s hgp h3 k ih).2.2.2

theorem visit_lt (s : List Point) (hgp : GenPos s) (h3 : 3 ≤ s.length) (k : Nat) :
    visit s k < s.length := (visit_inv_all s hgp h3 k).1

theorem visit_ne_succ (s : List Point) (hgp : GenPos s) (h3 : 3 ≤ s.length) (k : Nat) :
    visit s (k + 1) ≠ visit s k :=
  (visit_succ_spec s hgp h3 k (visit_inv_all s hgp h3 k)).2.1

theorem visit_dom (s : List Point) (hgp : GenPos s) (h3 : 3 ≤ s.length) (k : Nat) :
    ∀ i, i < s.length →
      crossVec (vecIdx s (visit s k) (visit s (k + 1))) (vecIdx s (visit s k) i) ≤ 0 :=
  (visit_succ_spec s hgp h3 k (visit_inv_all s hgp h3 k)).2.2.1

theorem visit_dom_strict (s : List Point) (hgp : GenPos s) (h3 : 3 ≤ s.length) (k i : Nat)
    (hi : i < s.length) (hip : i ≠ visit s k) (hiq : i ≠ visit s (k + 1)) :
    crossVec (vecIdx s (visit s k) (visit s (k + 1))) (vecIdx s (visit s k) i) < 0 := by
  refine lt_of_le_of_ne (visit_dom s hgp h3 k i hi) ?_
  exact hgp (visit s k) (visit_lt s hgp h3 k) (visit s (k + 1)) (visit_lt s hgp h3 (k + 1))
    i hi (fun h => visit_ne_succ s hgp h3 k h.symm) (fun h => hip h.symm) (fun h => hiq h.symm)

theorem visit_no_backtrack (s : List Point) (hgp : GenPos s) (h3 : 3 ≤ s.length) (k : Nat) :
    visit s (k + 2) ≠ visit s k := by
  intro hc
  obtain ⟨k0, hk03, hk0a, hk0b⟩ := exists_third (visit s k) (visit s (k + 1))
  have hk0 : k0 < s.length := by omega
  have h1 := visit_dom s hgp h3 k k0 hk0
  have h2 := visit_dom s hgp h3 (k + 1) k0 hk0
  rw [hc] at h2
  rw [crossVec_reverse_base] at h2
  have hz : crossVec (vecIdx s (visit s k) (visit s (k + 1))) (vecIdx s (visit s k) k0) = 0 :=
    le_antisymm h1 (by linarith)
  exact hgp (visit s k) (visit_lt s hgp h3 k) (visit s (k + 1)) (visit_lt s hgp h3 (k + 1))
    k0 hk0 (fun h => visit_ne_succ s hgp h3 k h.symm) (fun h => hk0a h.symm)
    (fun h => hk0b h.symm) hz

theorem visit_pred_inj (s : List Point) (hgp : GenPos s) (h3 : 3 ≤ s.length) (a b : Nat)
    (h : visit s (a + 1) = visit s (b + 1)) : visit s a = visit s b := by
  by_contra hne
  have hqa : visit s (a + 1) ≠ visit s a := visit_ne_succ s hgp h3 a
  have hqb : visit s (a + 1) ≠ visit s b := by
    rw [h]
    exact visit_ne_succ s hgp h3 b
  have h1 : crossVec (vecIdx s (visit s a) (visit s (a + 1)))
      (vecIdx s (visit s a) (visit s b)) < 0 :=
    visit_dom_strict s hgp h3 a (visit s b) (visit_lt s hgp h3 b)
      (fun hb => hne hb.symm) (fun hb => hqb hb.symm)
  have h2 : crossVec (vecIdx s (visit s b) (visit s (b + 1)))
      (vecIdx s (visit s b) (visit s a)) < 0 :=
    visit_dom_strict s hgp h3 b (visit s a) (visit_lt s hgp h3 a) hne
      (fun hb => hqa (h ▸ hb.symm))
  rw [← h] at h2
  have hsum : crossVec (vecIdx s (visit s a) (visit s (a + 1)))
        (vecIdx s (visit s a) (visit s b)) +
      crossVec (vecIdx s (visit s b) (visit s (a + 1)))
        (vecIdx s (visit s b) (visit s a)) = 0 := by
    simp only [crossVec, vecIdx, Point.vectorFrom]
    ring
  linarith

theorem visit_shift (s : List Point) (hgp : GenPos s) (h3 : 3 ≤ s.length) :
    ∀ i d, visit s i = visit s (i + d) → visit s 0 = visit s d := by
  intro i
  induction i with
  | zero =>
    intro d h
    rw [Nat.zero_add] at h
    exact h
  | succ i ih =>
    intro d h
    apply ih
    apply visit_pred_inj s hgp h3
    have harith : i + 1 + d = i + d + 1 := by omega
    rw [harith] at h
    exact h

theorem visit_returns (s : List Point) (hgp : GenPos s) (h3 : 3 ≤ s.length) :
    ∃ k, 1 ≤ k ∧ k ≤ s.length ∧ visit s k = minXIndex s := by
  have hmain : ∀ a b : Nat, a < b → b ≤ s.length → visit s a = visit s b →
      ∃ k, 1 ≤ k ∧ k ≤ s.length ∧ visit s k = minXIndex s := by
    intro a b hab hb hv
    have harith : a + (b - a) = b := by omega
    have hsh : visit s 0 = visit s (b - a) := by
      apply visit_shift s hgp h3 a
      rw [harith]
      exact hv
    exact ⟨b - a, by omega, by omega, hsh.symm⟩
  obtain ⟨a, b, hab, hfab⟩ := Fintype.exists_ne_map_eq_of_card_lt
    (fun k : Fin (s.length + 1) => (⟨visit s k, visit_lt s hgp h3 k⟩ : Fin s.length))
    (by simp)
  have hv : visit s a.val = visit s b.val := by
    have := congrArg Fin.val hfab
    simpa using this
  rcases Nat.lt_or_ge a.val b.val with hlt | hge
  · exact hmain a.val b.val hlt (by omega) hv
  · have hlt : b.val < a.val := by
      rcases Nat.lt_or_ge b.val a.val with h | h
      · exact h
      · exact absurd (Fin.ext (by omega)) hab
    exact hmain b.val a.val hlt (by omega) hv.symm

theorem nth_map_range (f : Nat → Point) (K t : Nat) (ht : t < K) :
    nth ((List.range K).map f) t = f t := by
  unfold nth
  have hlen : t < ((List.range K).map f).length := by simp [ht]
  rw [List.getD_eq_getElem _ _ hlen]
  simp

/-- Distinct positions below the first return time carry distinct indices. -/
theorem visit_inj_below (s : List Point) (hgp : GenPos s) (h3 : 3 ≤ s.length) (K : Nat)
    (hmin : ∀ m, 1 ≤ m → m < K → visit s m ≠ minXIndex s) :
    ∀ a b, a < b → b < K → visit s a ≠ visit s b := by
  intro a b hab hb hc
  have harith : a + (b - a) = b := by omega
  have hsh : visit s 0 = visit s (b - a) := by
    apply visit_shift s hgp h3 a
    rw [harith]
    exact hc
  exact hmin (b - a) (by omega) (by omega) hsh.symm

/-- Unrolling the wrap loop along the visit sequence: starting c steps before
the first return to the leftmost index, the loop emits exactly the points of
the remaining visits. -/
theorem wrap_unroll (s : List Point) (K : Nat)
    (hKn : K ≤ s.length) (hKl : visit s K = minXIndex s)
    (hmin : ∀ m, 1 ≤ m → m < K → visit s m ≠ minXIndex s) :
    ∀ c, 1 ≤ c → c ≤ K →
      wrapLoop s (minXIndex s) (s.length + 1 - (K - c)) (visit s (K - c)) [] =
        (List.range c).map (fun j => nth s (visit s (K - c + j))) := by
  intro c
  induction c with
  | zero =>
    intro h1 _
    exact absurd h1 (by omega)
  | succ c ih =>
    intro h1 hc
    by_cases hc0 : c = 0
    · subst hc0
      have hfuel : s.length + 1 - (K - 1) = (s.length - K) + 2 := by omega
      rw [hfuel]
      simp only [wrapLoop]
      have hscan : scanAll s (visit s (K - 1)) = minXIndex s := by
        have hv : visit s ((K - 1) + 1) = scanAll s (visit s (K - 1)) := rfl
        rw [← hv]
        have hK1 : K - 1 + 1 = K := by omega
        rw [hK1, hKl]
      rw [if_pos hscan]
      simp [List.range_succ]
    · have hcge : 1 ≤ c := by omega
      have hfuel : s.length + 1 - (K - (c + 1)) = (s.length - K + c) + 2 := by omega
      rw [hfuel]
      simp only [wrapLoop]
      have hscan : scanAll s (visit s (K - (c + 1))) = visit s (K - c) := by
        have hv : visit s ((K - (c + 1)) + 1) = scanAll s (visit s (K - (c + 1))) := rfl
        have harith : K - (c + 1) + 1 = K - c := by omega
        rw [← hv, harith]
      have hne : visit s (K - c) ≠ minXIndex s := hmin (K - c) (by omega) (by omega)
      rw [hscan, if_neg hne]
      rw [wrapLoop_append]
      have hfuel2 : s.length - K + c + 1 = s.length + 1 - (K - c) := by omega
      rw [hfuel2, ih hcge (by omega)]
      rw [List.range_succ_eq_map, List.map_cons, List.map_map]
      have hfun : ((fun j => nth s (visit s (K - (c + 1) + j))) ∘ Nat.succ) =
          (fun j => nth s (visit s (K - c + j))) := by
        funext a
        simp only [Function.comp_apply]
        have harith : K - (c + 1) + Nat.succ a = K - c + a := by omega
        rw [harith]
      rw [hfun]
      simp

theorem turnQ_eq_cross (s : List Point) (a b c : Nat) :
    turnQ (nth s a) (nth s b) (nth s c) = crossVec (vecIdx s a b) (vecIdx s a c) := by
  simp only [turnQ, crossVec, vecIdx, Point.vectorFrom]
  ring

/-- C5 amended: for input lists of at least 3 points in general position (no
three input points collinear, which also forces all points distinct),
convexHull succeeds; every input point is a vertex of the returned polygon or
lies inside or on its boundary, and the polygon is strictly convex: every
cyclically consecutive vertex triple turns counter-clockwise (negative cross
product under the y-down screen convention). -/
theorem claim_C5_hull_correct_on_genpos (s : List Point) (h3 : 3 ≤ s.length)
    (hgp : GenPos s) :
    ∃ h, convexHullQ s = Except.ok h ∧ 3 ≤ h.length ∧
      (∀ p ∈ s, p ∈ h ∨ insideOrOnHull h p) ∧ convexCCW h := by
  classical
  have hex : ∃ k, 1 ≤ k ∧ visit s k = minXIndex s := by
    obtain ⟨k, hk1, _, hkl⟩ := visit_returns s hgp h3
    exact ⟨k, hk1, hkl⟩
  obtain ⟨hK1, hKl⟩ := Nat.find_spec hex
  set K := Nat.find hex with hKdef
  have hKle : K ≤ s.length := by
    obtain ⟨k, hk1, hkn, hkl⟩ := visit_returns s hgp h3
    exact le_trans (Nat.find_min' hex ⟨hk1, hkl⟩) hkn
  have hmin : ∀ m, 1 ≤ m → m < K → visit s m ≠ minXIndex s := by
    intro m h1 hm hc
    exact Nat.find_min hex hm ⟨h1, hc⟩
  have hKne1 : K ≠ 1 := by
    intro h
    apply visit_ne_succ s hgp h3 0
    have h1 : visit s 1 = minXIndex s := h ▸ hKl
    exact h1
  have hKne2 : K ≠ 2 := by
    intro h
    apply visit_no_backtrack s hgp h3 0
    have h2 : visit s 2 = minXIndex s := h ▸ hKl
    exact h2
  have hK3 : 3 ≤ K := by omega
  have hwrap := wrap_unroll s K hKle hKl hmin K hK1 (le_refl K)
  have hKK : K - K = 0 := by omega
  rw [hKK] at hwrap
  simp only [Nat.sub_zero, Nat.zero_add] at hwrap
  have hv0 : visit s 0 = minXIndex s := rfl
  rw [hv0] at hwrap
  have hlen : ((List.range K).map (fun j => nth s (visit s j))).length = K := by simp
  refine ⟨(List.range K).map (fun j => nth s (visit s j)), ?_, ?_, ?_, ?_⟩
  · unfold convexHullQ
    rw [if_neg (by omega)]
    exact congrArg Except.ok hwrap
  · rw [hlen]
    exact hK3
  · -- containment: every input point is weakly right of every hull edge
    intro p hp
    right
    obtain ⟨i, hi, hpeq⟩ := List.mem_iff_getElem.mp hp
    have hnth : nth s i = p := by
      unfold nth
      rw [List.getD_eq_getElem _ _ hi]
      exact hpeq
    intro t ht
    rw [hlen] at ht
    rw [hlen, nth_map_range _ K t ht, ← hnth]
    rcases Nat.lt_or_ge (t + 1) K with ht1 | ht1
    · rw [Nat.mod_eq_of_lt ht1, nth_map_range _ K (t + 1) ht1]
      have := visit_dom s hgp h3 t i hi
      simpa [vecIdx] using this
    · have htK : t + 1 = K := by omega
      rw [htK, Nat.mod_self, nth_map_range _ K 0 (by omega)]
      have hd := visit_dom s hgp h3 t i hi
      have hrw : visit s (t + 1) = visit s 0 := by
        rw [htK, hKl, hv0]
      rw [hrw] at hd
      simpa [vecIdx] using hd
  · -- convexity: every cyclic consecutive triple turns strictly
    intro t ht
    rw [hlen] at ht
    rw [hlen, nth_map_range _ K t ht]
    rcases Nat.lt_or_ge (t + 2) K with ht2 | ht2
    · have ht1 : t + 1 < K := by omega
      rw [Nat.mod_eq_of_lt ht1, nth_map_range _ K (t + 1) ht1,
        Nat.mod_eq_of_lt ht2, nth_map_range _ K (t + 2) ht2, turnQ_eq_cross]
      exact visit_dom_strict s hgp h3 t (visit s (t + 2)) (visit_lt s hgp h3 (t + 2))
        (visit_no_backtrack s hgp h3 t) (visit_ne_succ s hgp h3 (t + 1))
    · rcases Nat.lt_or_ge (t + 1) K with ht1 | ht1
      · -- t + 2 = K: triple (visit t, visit (t+1), minXIndex)
        have htK : t + 2 = K := by omega
        rw [Nat.mod_eq_of_lt ht1, nth_map_range _ K (t + 1) ht1, htK, Nat.mod_self,
          nth_map_range _ K 0 (by omega), hv0, turnQ_eq_cross]
        refine visit_dom_strict s hgp h3 t (minXIndex s) (minXIndex_spec s (by omega)).1 ?_ ?_
        · intro hc
          exact hmin t (by omega) (by omega) hc.symm
        · intro hc
          exact hmin (t + 1) (by omega) (by omega) hc.symm
      · -- t + 1 = K: triple (visit (K-1), minXIndex, visit 1)
        have htK : t + 1 = K := by omega
        have hm1 : (t + 1) % K = 0 := by rw [htK, Nat.mod_self]
        have hm2 : (t + 2) % K = 1 := by
          have : t + 2 = K + 1 := by omega
          rw [this, Nat.add_mod_left, Nat.mod_eq_of_lt (by omega)]
        rw [hm1, nth_map_range _ K 0 (by omega), hm2, nth_map_range _ K 1 (by omega),
          hv0, turnQ_eq_cross]
        have hstrict := visit_dom_strict s hgp h3 t (visit s 1) (visit_lt s hgp h3 1)
          ?_ ?_
        · have hrw : visit s (t + 1) = minXIndex s := by rw [htK, hKl]
          rw [hrw] at hstrict
          exact hstrict
        · intro hc
          exact visit_inj_below s hgp h3 K hmin 1 t (by omega) (by omega) hc
        · intro hc
          have : visit s 1 = minXIndex s := by rw [hc, htK, hKl]
          exact hmin 1 (by omega) (by omega) this

/-- Witness for C5's amended theorem at a concrete general-position triangle. -/
theorem claim_C5_witness :
    3 ≤ ([⟨0, 0⟩, ⟨4, 1⟩, ⟨1, 3⟩] : List Point).length ∧
      GenPos [⟨0, 0⟩, ⟨4, 1⟩, ⟨1, 3⟩] ∧
      ∃ h, convexHullQ [⟨0, 0⟩, ⟨4, 1⟩, ⟨1, 3⟩] = Except.ok h ∧ 3 ≤ h.length ∧
        (∀ p ∈ ([⟨0, 0⟩, ⟨4, 1⟩, ⟨1, 3⟩] : List Point), p ∈ h ∨ insideOrOnHull h p) ∧
        convexCCW h := by
  have hgp : GenPos [⟨0, 0⟩, ⟨4, 1⟩, ⟨1, 3⟩] := by
    intro i hi j hj k hk hij hik hjk
    have hlen : ([⟨0, 0⟩, ⟨4, 1⟩, ⟨1, 3⟩] : List Point).length = 3 := rfl
    rw [hlen] at hi hj hk
    interval_cases i <;> interval_cases j <;> interval_cases k <;>
      first
        | omega
        | norm_num [crossVec, vecIdx, nth, Point.vectorFrom]
  exact ⟨by norm_num, hgp, claim_C5_hull_correct_on_genpos _ (by norm_num) hgp⟩

end Main
